import Mathlib

/-!
Verification of the IPFS-manifest Merkle tree builder
(`src/utils/ipfs_merkle/merkle_tree.py`).

Byte strings are modelled as `List Nat` (one entry per byte); the Keccak-256
hash function is an arbitrary parameter `keccak : List Nat → List Nat` of
every definition, mirroring the module-level `keccak` import of the source.
Python exceptions (`ValueError`, `IndexError`) are modelled with
`Except String`, carrying the source's message strings.
-/

/-- Byte strings, as lists of byte values. -/
abbrev Bytes := List Nat

/-- Lexicographic byte-wise comparison, the semantics of Python's `<` on
`bytes` values (shorter strict prefixes compare smaller). -/
def bytesLt : Bytes → Bytes → Bool
  | _, [] => false
  | [], _ :: _ => true
  | a :: as, b :: bs => if a < b then true else if b < a then false else bytesLt as bs

/-- Embedding of `MerkleTree._hash_pair`: if `sort_pairs` is set and
`right < left` (byte-wise), the two buffers are swapped before the
concatenation is hashed. -/
def hash_pair (keccak : Bytes → Bytes) (sort_pairs : Bool) (left right : Bytes) : Bytes :=
  if sort_pairs && bytesLt right left then keccak (right ++ left)
  else keccak (left ++ right)

/-- One pass of the inner `for i in range(0, len(current_layer), 2)` loop of
`MerkleTree._build_layers`: adjacent elements are paired, and the last
element of an odd-length layer is paired with itself. -/
def nextLayer (keccak : Bytes → Bytes) (sort_pairs : Bool) : List Bytes → List Bytes
  | [] => []
  | [x] => [hash_pair keccak sort_pairs x x]
  | x :: y :: rest => hash_pair keccak sort_pairs x y :: nextLayer keccak sort_pairs rest

/-- Fuel-indexed form of the `while len(current_layer) > 1` loop of
`MerkleTree._build_layers`; fuel equal to the layer length always suffices
since each iteration at least halves the layer. -/
def buildLayersFuel (keccak : Bytes → Bytes) (sort_pairs : Bool) :
    Nat → List Bytes → List (List Bytes)
  | 0, cur => [cur]
  | fuel + 1, cur =>
    if cur.length ≤ 1 then [cur]
    else cur :: buildLayersFuel keccak sort_pairs fuel (nextLayer keccak sort_pairs cur)

/-- Embedding of `MerkleTree._build_layers`: the list of layers, from the
leaf layer up to (and including) the root layer. -/
def buildLayers (keccak : Bytes → Bytes) (sort_pairs : Bool) (cur : List Bytes) :
    List (List Bytes) :=
  buildLayersFuel keccak sort_pairs cur.length cur

/-- The state of a constructed `MerkleTree` object: the `sort_pairs` flag,
the (post-`hash_leaves`) leaf list, and the layer list. -/
structure MerkleTree where
  sort_pairs : Bool
  leaves : List Bytes
  layers : List (List Bytes)
deriving DecidableEq, Repr

/-- Embedding of `MerkleTree.__init__`: raises
`ValueError("Merkle tree requires at least one leaf")` on an empty input,
otherwise stores the (optionally keccak-hashed) leaves and builds the layers. -/
def mkMerkleTree (keccak : Bytes → Bytes) (leaves : List Bytes)
    (hash_leaves : Bool) (sort_pairs : Bool) : Except String MerkleTree :=
  if leaves.isEmpty then .error "Merkle tree requires at least one leaf"
  else
    let processed := if hash_leaves then leaves.map keccak else leaves
    .ok { sort_pairs := sort_pairs
          leaves := processed
          layers := buildLayers keccak sort_pairs processed }

/-- Embedding of the `MerkleTree.root` property: `self.layers[-1][0]`. -/
def MerkleTree.root (t : MerkleTree) : Bytes :=
  (t.layers.getLastD []).headD []

/-- The `for layer in self.layers[:-1]` loop of `MerkleTree.get_proof`,
taking the already-truncated layer list: at each layer the sibling position
is `index - 1` for an odd index and `index + 1` for an even one, and the
sibling is appended only when that position is in bounds. -/
def getProofLoop : List (List Bytes) → Nat → List Bytes
  | [], _ => []
  | layer :: rest, index =>
    let pair_index := if index % 2 = 1 then index - 1 else index + 1
    (if pair_index < layer.length then [layer.getD pair_index []] else [])
      ++ getProofLoop rest (index / 2)

/-- Embedding of `MerkleTree.get_proof`: raises
`IndexError("Leaf index out of range")` for an index outside
`[0, len(self.leaves))`, otherwise walks all layers but the last. -/
def MerkleTree.get_proof (t : MerkleTree) (index : Int) : Except String (List Bytes) :=
  if index < 0 ∨ (t.leaves.length : Int) ≤ index then .error "Leaf index out of range"
  else .ok (getProofLoop t.layers.dropLast index.toNat)

/-- A `files` entry of an uploader manifest, with the two fields the core
reads. -/
structure ManifestEntry where
  name : String
  cid : String
deriving DecidableEq, Repr

/-- A parsed manifest JSON object; `files = none` models a JSON object with
no `files` key, matching `manifest_data.get("files", [])`. -/
structure Manifest where
  files : Option (List ManifestEntry)
deriving DecidableEq, Repr

/-- UTF-8 encoding of a string, as byte values: Python's `str.encode("utf-8")`. -/
def strBytes (s : String) : Bytes :=
  s.toUTF8.toList.map UInt8.toNat

/-- Embedding of `_manifest_leaf`: the UTF-8 bytes of `f"{name}:{cid}"`. -/
def manifest_leaf (entry : ManifestEntry) : Bytes :=
  strBytes (entry.name ++ ":" ++ entry.cid)

/-- Embedding of `build_merkle_tree_from_manifest` (past the JSON parse):
derives one leaf per `files` entry in array order, raises
`ValueError("Manifest does not contain any files")` when there are none, and
builds the tree with `hash_leaves=True, sort_pairs=True`. -/
def build_merkle_tree_from_manifest (keccak : Bytes → Bytes) (manifest : Manifest) :
    Except String MerkleTree :=
  let leaves := (manifest.files.getD []).map manifest_leaf
  if leaves.isEmpty then .error "Manifest does not contain any files"
  else mkMerkleTree keccak leaves true true

/-- Modelled from the spec: the repository contains no proof verifier under
`src/`; §4.4/§8 require reconstructing the root from a `(leaf, proof, index)`
triple (with the leaf count known) by walking bottom-up with the sorted-pair
rule, hashing the running node with itself at each level whose sibling
position fell out of bounds (the duplicated-last-element case). Fuel equal
to the leaf count always suffices. -/
def reconstructRootFuel (keccak : Bytes → Bytes) :
    Nat → Bytes → List Bytes → Nat → Nat → Bytes
  | 0, node, _, _, _ => node
  | fuel + 1, node, proof, index, n =>
    if n ≤ 1 then node
    else
      let pair_index := if index % 2 = 1 then index - 1 else index + 1
      if pair_index < n then
        match proof with
        | [] => node
        | p :: rest =>
          reconstructRootFuel keccak fuel (hash_pair keccak true node p) rest
            (index / 2) ((n + 1) / 2)
      else
        reconstructRootFuel keccak fuel (hash_pair keccak true node node) proof
          (index / 2) ((n + 1) / 2)

/-- Modelled from the spec: root reconstruction from a leaf, its proof, its
index and the leaf count, per §4.4/§8. -/
def reconstructRoot (keccak : Bytes → Bytes) (leaf : Bytes) (proof : List Bytes)
    (index : Nat) (n : Nat) : Bytes :=
  reconstructRootFuel keccak n leaf proof index n

/-! ### Basic facts about the byte-wise order and pair hashing -/

theorem bytesLt_asymm : ∀ a b : Bytes, bytesLt a b = true → bytesLt b a = false
  | _, [], h => by simp [bytesLt] at h
  | [], _ :: _, _ => rfl
  | a :: as, b :: bs, h => by
    simp only [bytesLt] at h ⊢
    by_cases hab : a < b
    · have hba : ¬ b < a := by omega
      simp [hab, hba]
    · by_cases hba : b < a
      · simp [hab, hba] at h
      · have : a = b := by omega
        simp [hab, hba] at h ⊢
        exact bytesLt_asymm as bs h

theorem bytesLt_antisymm_eq : ∀ a b : Bytes,
    bytesLt a b = false → bytesLt b a = false → a = b
  | [], [], _, _ => rfl
  | [], _ :: _, h1, _ => by simp [bytesLt] at h1
  | _ :: _, [], _, h2 => by simp [bytesLt] at h2
  | a :: as, b :: bs, h1, h2 => by
    simp only [bytesLt] at h1 h2
    by_cases hab : a < b
    · simp [hab] at h1
    · by_cases hba : b < a
      · simp [hab, hba] at h2
      · have hv : a = b := by omega
        simp [hab, hba] at h1 h2
        rw [hv, bytesLt_antisymm_eq as bs h1 h2]

theorem hash_pair_comm (keccak : Bytes → Bytes) (a b : Bytes) :
    hash_pair keccak true a b = hash_pair keccak true b a := by
  unfold hash_pair
  rcases hba : bytesLt b a with _ | _
  · rcases hab : bytesLt a b with _ | _
    · rw [bytesLt_antisymm_eq a b hab hba]
    · simp [hab, hba]
  · have hab : bytesLt a b = false := bytesLt_asymm b a hba
    simp [hab, hba]

/-! ### Layer construction lemmas -/

theorem nextLayer_length (keccak : Bytes → Bytes) (sp : Bool) :
    ∀ cur : List Bytes, (nextLayer keccak sp cur).length = (cur.length + 1) / 2
  | [] => rfl
  | [_] => by simp [nextLayer]
  | _ :: _ :: rest => by
    simp only [nextLayer, List.length_cons, nextLayer_length keccak sp rest]
    omega

theorem buildLayersFuel_zero (keccak : Bytes → Bytes) (sp : Bool) (cur : List Bytes) :
    buildLayersFuel keccak sp 0 cur = [cur] := rfl

theorem buildLayersFuel_succ (keccak : Bytes → Bytes) (sp : Bool) (fuel : Nat)
    (cur : List Bytes) :
    buildLayersFuel keccak sp (fuel + 1) cur =
      if cur.length ≤ 1 then [cur]
      else cur :: buildLayersFuel keccak sp fuel (nextLayer keccak sp cur) := rfl

theorem buildLayersFuel_irrel (keccak : Bytes → Bytes) (sp : Bool) :
    ∀ f₁ f₂ : Nat, ∀ cur : List Bytes, cur.length ≤ f₁ + 1 → cur.length ≤ f₂ + 1 →
      buildLayersFuel keccak sp f₁ cur = buildLayersFuel keccak sp f₂ cur := by
  intro f₁
  induction f₁ with
  | zero =>
    intro f₂ cur h1 _
    match f₂ with
    | 0 => rfl
    | g + 1 =>
      rw [buildLayersFuel_zero, buildLayersFuel_succ, if_pos (by omega)]
  | succ f ih =>
    intro f₂ cur h1 h2
    match f₂ with
    | 0 =>
      rw [buildLayersFuel_zero, buildLayersFuel_succ, if_pos (by omega)]
    | g + 1 =>
      rw [buildLayersFuel_succ, buildLayersFuel_succ]
      by_cases hc : cur.length ≤ 1
      · rw [if_pos hc, if_pos hc]
      · rw [if_neg hc, if_neg hc]
        have hn := nextLayer_length keccak sp cur
        exact congrArg (cur :: ·) (ih g (nextLayer keccak sp cur) (by omega) (by omega))

theorem buildLayers_eq_single (keccak : Bytes → Bytes) (sp : Bool) (cur : List Bytes)
    (h : cur.length ≤ 1) : buildLayers keccak sp cur = [cur] := by
  unfold buildLayers
  rcases Nat.le_one_iff_eq_zero_or_eq_one.mp h with h0 | h1
  · rw [h0, buildLayersFuel_zero]
  · rw [h1, show (1 : Nat) = 0 + 1 from rfl, buildLayersFuel_succ, if_pos (by omega)]

theorem buildLayers_eq_cons (keccak : Bytes → Bytes) (sp : Bool) (cur : List Bytes)
    (h : 2 ≤ cur.length) :
    buildLayers keccak sp cur =
      cur :: buildLayers keccak sp (nextLayer keccak sp cur) := by
  have hm : cur.length = (cur.length - 1) + 1 := by omega
  unfold buildLayers
  rw [hm, buildLayersFuel_succ, if_neg (by omega)]
  have hn := nextLayer_length keccak sp cur
  exact congrArg (cur :: ·)
    (buildLayersFuel_irrel keccak sp (cur.length - 1) (nextLayer keccak sp cur).length
      (nextLayer keccak sp cur) (by omega) (by omega))

theorem getLastD_cons_of_ne_nil {α : Type} (a d : α) :
    ∀ l : List α, l ≠ [] → (a :: l).getLastD d = l.getLastD d
  | b :: m, _ => by rw [List.getLastD_cons, List.getLastD_cons, List.getLastD_cons]

theorem buildLayers_ne_nil (keccak : Bytes → Bytes) (sp : Bool) (cur : List Bytes) :
    buildLayers keccak sp cur ≠ [] := by
  by_cases h : cur.length ≤ 1
  · rw [buildLayers_eq_single keccak sp cur h]
    exact List.cons_ne_nil _ _
  · rw [buildLayers_eq_cons keccak sp cur (by omega)]
    exact List.cons_ne_nil _ _

theorem buildLayers_headD (keccak : Bytes → Bytes) (sp : Bool) (cur : List Bytes) :
    (buildLayers keccak sp cur).headD [] = cur := by
  by_cases h : cur.length ≤ 1
  · rw [buildLayers_eq_single keccak sp cur h]
    rfl
  · rw [buildLayers_eq_cons keccak sp cur (by omega)]
    rfl

theorem nextLayer_ne_nil (keccak : Bytes → Bytes) (sp : Bool) (cur : List Bytes)
    (h : cur ≠ []) : nextLayer keccak sp cur ≠ [] := by
  have hl := nextLayer_length keccak sp cur
  have hc : 0 < cur.length := List.length_pos.mpr h
  intro hn
  rw [hn] at hl
  simp at hl
  omega

theorem buildLayers_lastLayer (keccak : Bytes → Bytes) (sp : Bool) :
    ∀ fuel : Nat, ∀ cur : List Bytes, cur.length ≤ fuel → cur ≠ [] →
      ((buildLayers keccak sp cur).getLastD []).length = 1 := by
  intro fuel
  induction fuel with
  | zero =>
    intro cur hf hne
    exact absurd (List.length_pos.mpr hne) (by omega)
  | succ f ih =>
    intro cur hf hne
    by_cases h1 : cur.length ≤ 1
    · rw [buildLayers_eq_single keccak sp cur h1, List.getLastD_cons, List.getLastD_nil]
      have := List.length_pos.mpr hne
      omega
    · rw [buildLayers_eq_cons keccak sp cur (by omega),
        getLastD_cons_of_ne_nil _ _ _ (buildLayers_ne_nil keccak sp _)]
      have hn := nextLayer_length keccak sp cur
      exact ih (nextLayer keccak sp cur) (by omega)
        (nextLayer_ne_nil keccak sp cur hne)

theorem buildLayers_depth (keccak : Bytes → Bytes) (sp : Bool) :
    ∀ fuel : Nat, ∀ cur : List Bytes, cur.length ≤ fuel → cur ≠ [] →
      (buildLayers keccak sp cur).length = Nat.clog 2 cur.length + 1 := by
  intro fuel
  induction fuel with
  | zero =>
    intro cur hf hne
    exact absurd (List.length_pos.mpr hne) (by omega)
  | succ f ih =>
    intro cur hf hne
    by_cases h1 : cur.length ≤ 1
    · have hc : cur.length = 1 := by
        have := List.length_pos.mpr hne
        omega
      rw [buildLayers_eq_single keccak sp cur h1, hc, Nat.clog_one_right]
      simp
    · have h2 : 2 ≤ cur.length := by omega
      have hn := nextLayer_length keccak sp cur
      rw [buildLayers_eq_cons keccak sp cur h2, List.length_cons,
        ih (nextLayer keccak sp cur) (by omega) (nextLayer_ne_nil keccak sp cur hne),
        hn, Nat.clog_of_two_le (by omega) h2]
      have he : (cur.length + 2 - 1) / 2 = (cur.length + 1) / 2 := by omega
      rw [he]

theorem dropLast_cons_of_ne_nil {α : Type} (a : α) :
    ∀ l : List α, l ≠ [] → (a :: l).dropLast = a :: l.dropLast
  | _ :: _, _ => rfl

theorem nextLayer_getD (keccak : Bytes → Bytes) (sp : Bool) :
    ∀ cur : List Bytes, ∀ j : Nat, j < (nextLayer keccak sp cur).length →
      (nextLayer keccak sp cur).getD j [] =
        hash_pair keccak sp (cur.getD (2 * j) [])
          (if 2 * j + 1 < cur.length then cur.getD (2 * j + 1) [] else cur.getD (2 * j) [])
  | [], j, hj => by simp [nextLayer] at hj
  | [x], j, hj => by
    have hj0 : j = 0 := by
      have h1 := nextLayer_length keccak sp [x]
      have h2 : ([x] : List Bytes).length = 1 := rfl
      omega
    subst hj0
    simp [nextLayer]
  | x :: y :: rest, 0, _ => by
    have hc : 2 * 0 + 1 < (x :: y :: rest).length := by
      simp only [List.length_cons]
      omega
    rw [if_pos hc]
    rfl
  | x :: y :: rest, j + 1, hj => by
    have hj' : j < (nextLayer keccak sp rest).length := by
      simp only [nextLayer, List.length_cons] at hj
      omega
    have ih := nextLayer_getD keccak sp rest j hj'
    simp only [nextLayer, List.getD_cons_succ]
    rw [ih]
    have e1 : 2 * (j + 1) = 2 * j + 1 + 1 := by omega
    rw [e1]
    simp only [List.getD_cons_succ, List.length_cons]
    have hciff : (2 * j + 1 + 1 + 1 < rest.length + 1 + 1) ↔ (2 * j + 1 < rest.length) := by
      omega
    by_cases hcc : 2 * j + 1 < rest.length
    · rw [if_pos hcc, if_pos (hciff.mpr hcc)]
    · rw [if_neg hcc, if_neg (fun hx => hcc (hciff.mp hx))]

theorem getProofLoop_length_le : ∀ layers : List (List Bytes), ∀ i : Nat,
    (getProofLoop layers i).length ≤ layers.length
  | [], _ => by simp [getProofLoop]
  | layer :: rest, i => by
    have ih := getProofLoop_length_le rest (i / 2)
    simp only [getProofLoop, List.length_append, List.length_cons]
    by_cases h : (if i % 2 = 1 then i - 1 else i + 1) < layer.length
    · rw [if_pos h]
      simp only [List.length_cons, List.length_nil]
      omega
    · rw [if_neg h]
      simp only [List.length_nil]
      omega

theorem reconstructRootFuel_succ (keccak : Bytes → Bytes) (fuel : Nat) (node : Bytes)
    (proof : List Bytes) (index n : Nat) :
    reconstructRootFuel keccak (fuel + 1) node proof index n =
      if n ≤ 1 then node
      else if (if index % 2 = 1 then index - 1 else index + 1) < n then
        match proof with
        | [] => node
        | p :: rest =>
          reconstructRootFuel keccak fuel (hash_pair keccak true node p) rest
            (index / 2) ((n + 1) / 2)
      else
        reconstructRootFuel keccak fuel (hash_pair keccak true node node) proof
          (index / 2) ((n + 1) / 2) := rfl

theorem reconstructRootFuel_irrel (keccak : Bytes → Bytes) :
    ∀ f₁ f₂ : Nat, ∀ node : Bytes, ∀ proof : List Bytes, ∀ index n : Nat,
      n ≤ f₁ → n ≤ f₂ →
      reconstructRootFuel keccak f₁ node proof index n =
        reconstructRootFuel keccak f₂ node proof index n := by
  intro f₁
  induction f₁ with
  | zero =>
    intro f₂ node proof index n h1 _
    have hn : n = 0 := by omega
    subst hn
    cases f₂ with
    | zero => rfl
    | succ g => rw [reconstructRootFuel_succ, if_pos (by omega)]; rfl
  | succ f ih =>
    intro f₂ node proof index n h1 h2
    by_cases hn : n ≤ 1
    · cases f₂ with
      | zero =>
        rw [reconstructRootFuel_succ, if_pos hn]
        rfl
      | succ g =>
        rw [reconstructRootFuel_succ, reconstructRootFuel_succ, if_pos hn, if_pos hn]
    · have hg : 1 ≤ f₂ := by omega
      cases f₂ with
      | zero => omega
      | succ g =>
        rw [reconstructRootFuel_succ, reconstructRootFuel_succ, if_neg hn, if_neg hn]
        by_cases hp : (if index % 2 = 1 then index - 1 else index + 1) < n
        · rw [if_pos hp, if_pos hp]
          cases proof with
          | nil => rfl
          | cons p rest => exact ih g _ rest _ _ (by omega) (by omega)
        · rw [if_neg hp, if_neg hp]
          exact ih g _ proof _ _ (by omega) (by omega)

theorem reconstructRoot_step_present (keccak : Bytes → Bytes) (node p : Bytes)
    (rest : List Bytes) (index n : Nat) (h2 : 2 ≤ n)
    (hp : (if index % 2 = 1 then index - 1 else index + 1) < n) :
    reconstructRoot keccak node (p :: rest) index n =
      reconstructRoot keccak (hash_pair keccak true node p) rest (index / 2) ((n + 1) / 2) := by
  obtain ⟨m, rfl⟩ : ∃ m, n = m + 1 := ⟨n - 1, by omega⟩
  unfold reconstructRoot
  rw [reconstructRootFuel_succ, if_neg (by omega), if_pos hp]
  exact reconstructRootFuel_irrel keccak m ((m + 1 + 1) / 2) _ rest _ _ (by omega) (by omega)

theorem reconstructRoot_step_absent (keccak : Bytes → Bytes) (node : Bytes)
    (proof : List Bytes) (index n : Nat) (h2 : 2 ≤ n)
    (hp : ¬ (if index % 2 = 1 then index - 1 else index + 1) < n) :
    reconstructRoot keccak node proof index n =
      reconstructRoot keccak (hash_pair keccak true node node) proof (index / 2) ((n + 1) / 2) := by
  obtain ⟨m, rfl⟩ : ∃ m, n = m + 1 := ⟨n - 1, by omega⟩
  unfold reconstructRoot
  rw [reconstructRootFuel_succ, if_neg (by omega), if_neg hp]
  exact reconstructRootFuel_irrel keccak m ((m + 1 + 1) / 2) _ proof _ _ (by omega) (by omega)

theorem reconstruct_layers (keccak : Bytes → Bytes) :
    ∀ fuel : Nat, ∀ cur : List Bytes, cur.length ≤ fuel → cur ≠ [] →
      ∀ i : Nat, i < cur.length →
      reconstructRoot keccak (cur.getD i [])
          (getProofLoop (buildLayers keccak true cur).dropLast i) i cur.length
        = ((buildLayers keccak true cur).getLastD []).headD [] := by
  intro fuel
  induction fuel with
  | zero =>
    intro cur hf hne i hi
    exact absurd (List.length_pos.mpr hne) (by omega)
  | succ f ih =>
    intro cur hf hne i hi
    by_cases h1 : cur.length ≤ 1
    · have hc1 : cur.length = 1 := by
        have := List.length_pos.mpr hne
        omega
      have hi0 : i = 0 := by omega
      subst hi0
      obtain ⟨x, rfl⟩ : ∃ x, cur = [x] := by
        cases cur with
        | nil => simp at hc1
        | cons x t =>
          cases t with
          | nil => exact ⟨x, rfl⟩
          | cons y r => simp at hc1
      rw [buildLayers_eq_single keccak true [x] h1]
      rfl
    · have h2 : 2 ≤ cur.length := by omega
      have hnext_ne : nextLayer keccak true cur ≠ [] := nextLayer_ne_nil keccak true cur hne
      have hL_ne : buildLayers keccak true (nextLayer keccak true cur) ≠ [] :=
        buildLayers_ne_nil keccak true _
      have hnl := nextLayer_length keccak true cur
      rw [buildLayers_eq_cons keccak true cur h2,
        dropLast_cons_of_ne_nil cur _ hL_ne,
        getLastD_cons_of_ne_nil cur [] _ hL_ne]
      simp only [getProofLoop]
      have hjlt : i / 2 < (nextLayer keccak true cur).length := by rw [hnl]; omega
      have hfuel : (nextLayer keccak true cur).length ≤ f := by rw [hnl]; omega
      have hget := nextLayer_getD keccak true cur (i / 2) hjlt
      by_cases hpar : i % 2 = 1
      · rw [show (if i % 2 = 1 then i - 1 else i + 1) = i - 1 from if_pos hpar]
        have hp : i - 1 < cur.length := by omega
        rw [if_pos hp, List.singleton_append,
          reconstructRoot_step_present keccak (cur.getD i []) (cur.getD (i - 1) []) _
            i cur.length h2 (by rw [if_pos hpar]; exact hp)]
        have e2 : 2 * (i / 2) + 1 = i := by omega
        have e1 : 2 * (i / 2) = i - 1 := by omega
        rw [e2, e1, if_pos hi] at hget
        rw [hash_pair_comm keccak (cur.getD i []) (cur.getD (i - 1) []), ← hget, ← hnl]
        exact ih (nextLayer keccak true cur) hfuel hnext_ne (i / 2) hjlt
      · rw [show (if i % 2 = 1 then i - 1 else i + 1) = i + 1 from if_neg hpar]
        by_cases hp : i + 1 < cur.length
        · rw [if_pos hp, List.singleton_append,
            reconstructRoot_step_present keccak (cur.getD i []) (cur.getD (i + 1) []) _
              i cur.length h2 (by rw [if_neg hpar]; exact hp)]
          have e2 : 2 * (i / 2) + 1 = i + 1 := by omega
          have e1 : 2 * (i / 2) = i := by omega
          rw [e2, e1, if_pos hp] at hget
          rw [← hget, ← hnl]
          exact ih (nextLayer keccak true cur) hfuel hnext_ne (i / 2) hjlt
        · rw [if_neg hp, List.nil_append,
            reconstructRoot_step_absent keccak (cur.getD i []) _
              i cur.length h2 (by rw [if_neg hpar]; exact hp)]
          have e2 : 2 * (i / 2) + 1 = i + 1 := by omega
          have e1 : 2 * (i / 2) = i := by omega
          rw [e2, e1, if_neg hp] at hget
          rw [← hget, ← hnl]
          exact ih (nextLayer keccak true cur) hfuel hnext_ne (i / 2) hjlt

theorem mkMerkleTree_nil (keccak : Bytes → Bytes) (hl sp : Bool) :
    mkMerkleTree keccak [] hl sp = .error "Merkle tree requires at least one leaf" := rfl

theorem mkMerkleTree_ok (keccak : Bytes → Bytes) (inputs : List Bytes) (hl sp : Bool)
    (hne : inputs ≠ []) :
    mkMerkleTree keccak inputs hl sp =
      .ok { sort_pairs := sp
            leaves := if hl then inputs.map keccak else inputs
            layers := buildLayers keccak sp (if hl then inputs.map keccak else inputs) } := by
  have he : ¬ (inputs.isEmpty = true) := by
    cases inputs with
    | nil => exact absurd rfl hne
    | cons a as => simp
  unfold mkMerkleTree
  rw [if_neg he]

theorem mkMerkleTree_ok_elim (keccak : Bytes → Bytes) (inputs : List Bytes)
    (hl sp : Bool) (t : MerkleTree) (ht : mkMerkleTree keccak inputs hl sp = .ok t) :
    inputs ≠ [] ∧ t.sort_pairs = sp ∧
      t.leaves = (if hl then inputs.map keccak else inputs) ∧
      t.layers = buildLayers keccak sp (if hl then inputs.map keccak else inputs) := by
  have hne : inputs ≠ [] := by
    intro h
    subst h
    rw [mkMerkleTree_nil] at ht
    exact absurd ht (by simp)
  rw [mkMerkleTree_ok keccak inputs hl sp hne] at ht
  obtain rfl := Except.ok.inj ht
  exact ⟨hne, rfl, rfl, rfl⟩

theorem get_proof_ok (t : MerkleTree) (index : Int) (h0 : 0 ≤ index)
    (hlt : index < (t.leaves.length : Int)) :
    t.get_proof index = .ok (getProofLoop t.layers.dropLast index.toNat) := by
  unfold MerkleTree.get_proof
  rw [if_neg (by omega)]

/-! ### Claim theorems -/

/-- C1: for every non-empty leaf sequence and every valid leaf index `i`,
recomputing the root from `(leaf_i, get_proof(i), i)` — folding bottom-up
with the sorted-pair rule, and hashing the node with itself at levels where
the duplicated-last-element case produced no sibling entry — yields exactly
`tree.root`. -/
theorem reconstruct_root_eq (keccak : Bytes → Bytes) (inputs : List Bytes) (hl : Bool)
    (t : MerkleTree) (ht : mkMerkleTree keccak inputs hl true = .ok t)
    (i : Nat) (hi : i < t.leaves.length) :
    ∃ pf : List Bytes, t.get_proof (i : Int) = .ok pf ∧
      reconstructRoot keccak (t.leaves.getD i []) pf i t.leaves.length = t.root := by
  obtain ⟨hne, _, hlv, hly⟩ := mkMerkleTree_ok_elim keccak inputs hl true t ht
  rw [hlv] at hi
  have hPne : (if hl then inputs.map keccak else inputs) ≠ [] := by
    cases hl
    · simpa using hne
    · simpa using hne
  refine ⟨getProofLoop
      (buildLayers keccak true (if hl then inputs.map keccak else inputs)).dropLast i,
    ?_, ?_⟩
  · rw [get_proof_ok t (i : Int) (by omega) (by rw [hlv]; exact_mod_cast hi),
      hly, Int.toNat_natCast]
  · rw [hlv, MerkleTree.root, hly]
    exact reconstruct_layers keccak _ _ le_rfl hPne i hi

/-- Test hash function for concrete witnesses: prepends a marker byte, so
distinct inputs stay distinct. -/
def testHash (b : Bytes) : Bytes := 7 :: b

theorem reconstruct_root_eq_witness :
    ∃ pf : List Bytes,
      (MerkleTree.mk true [[1], [2], [3]]
        [[[1], [2], [3]], [[7, 1, 2], [7, 3, 3]], [[7, 7, 1, 2, 7, 3, 3]]]).get_proof
        ((2 : Nat) : Int) = .ok pf ∧
      reconstructRoot testHash
        ((MerkleTree.mk true [[1], [2], [3]]
          [[[1], [2], [3]], [[7, 1, 2], [7, 3, 3]], [[7, 7, 1, 2, 7, 3, 3]]]).leaves.getD 2 [])
        pf 2
        (MerkleTree.mk true [[1], [2], [3]]
          [[[1], [2], [3]], [[7, 1, 2], [7, 3, 3]], [[7, 7, 1, 2, 7, 3, 3]]]).leaves.length
      = (MerkleTree.mk true [[1], [2], [3]]
          [[[1], [2], [3]], [[7, 1, 2], [7, 3, 3]], [[7, 7, 1, 2, 7, 3, 3]]]).root :=
  reconstruct_root_eq testHash [[1], [2], [3]] false
    (MerkleTree.mk true [[1], [2], [3]]
      [[[1], [2], [3]], [[7, 1, 2], [7, 3, 3]], [[7, 7, 1, 2, 7, 3, 3]]])
    rfl 2 (by decide)

/-- Concrete three-leaf test tree over `testHash` (raw leaves, sorted pairs),
with its layers written out. -/
def tw3 : MerkleTree :=
  MerkleTree.mk true [[1], [2], [3]]
    [[[1], [2], [3]], [[7, 1, 2], [7, 3, 3]], [[7, 7, 1, 2, 7, 3, 3]]]

theorem tw3_built : mkMerkleTree testHash [[1], [2], [3]] false true = .ok tw3 := rfl

/-- C2 counterexample: in the tree built from three leaves, the proof for
index 2 has length 1 while ceil(log2 3) = 2 — the layer where the
duplicated last element was paired with itself contributes no sibling
entry, so the stated length equality fails. -/
theorem proof_length_counterexample :
    (tw3.get_proof 2).map List.length = .ok 1 ∧
    tw3.leaves.length = 3 ∧ Nat.clog 2 3 = 2 ∧ (1 : Nat) ≠ 2 := by
  refine ⟨rfl, rfl, ?_, by decide⟩
  rw [Nat.clog_of_two_le (by norm_num) (by norm_num)]
  norm_num
  rw [Nat.clog_of_two_le (by norm_num) (by norm_num)]
  norm_num [Nat.clog_of_right_le_one]

/-- C2 (amended): the proof contains at most one sibling hash per non-root
layer — none at duplicated-last-element levels — so its length is at most
the number of non-root layers, which equals ceil(log2 n); it is exactly zero
when n = 1. -/
theorem proof_length_bound (keccak : Bytes → Bytes) (inputs : List Bytes)
    (hl sp : Bool) (t : MerkleTree) (ht : mkMerkleTree keccak inputs hl sp = .ok t)
    (i : Int) (pf : List Bytes) (hpf : t.get_proof i = .ok pf) :
    pf.length ≤ t.layers.length - 1 ∧
    t.layers.length = Nat.clog 2 t.leaves.length + 1 ∧
    (t.leaves.length = 1 → pf = []) := by
  obtain ⟨hne, _, hlv, hly⟩ := mkMerkleTree_ok_elim keccak inputs hl sp t ht
  have hPne : (if hl then inputs.map keccak else inputs) ≠ [] := by
    cases hl
    · simpa using hne
    · simpa using hne
  unfold MerkleTree.get_proof at hpf
  by_cases hv : i < 0 ∨ (t.leaves.length : Int) ≤ i
  · rw [if_pos hv] at hpf
    exact absurd hpf (by simp)
  · rw [if_neg hv] at hpf
    obtain rfl := Except.ok.inj hpf
    refine ⟨?_, ?_, ?_⟩
    · have h1 := getProofLoop_length_le t.layers.dropLast i.toNat
      rw [List.length_dropLast] at h1
      exact h1
    · rw [hly, hlv, buildLayers_depth keccak sp _ _ le_rfl hPne]
    · intro h1
      rw [hlv] at h1
      rw [hly, buildLayers_eq_single keccak sp _ (by omega)]
      rfl

theorem proof_length_bound_witness :
    ([[7, 1, 2]] : List Bytes).length ≤ tw3.layers.length - 1 ∧
    tw3.layers.length = Nat.clog 2 tw3.leaves.length + 1 ∧
    (tw3.leaves.length = 1 → ([[7, 1, 2]] : List Bytes) = []) :=
  proof_length_bound testHash [[1], [2], [3]] false true tw3 tw3_built 2 [[7, 1, 2]] rfl

theorem nextLayer_swap (keccak : Bytes → Bytes) :
    ∀ pre : List Bytes, pre.length % 2 = 0 → ∀ a b : Bytes, ∀ post : List Bytes,
      nextLayer keccak true (pre ++ a :: b :: post) =
        nextLayer keccak true (pre ++ b :: a :: post)
  | [], _, a, b, post => by
    simp only [List.nil_append, nextLayer]
    rw [hash_pair_comm]
  | [x], h, _, _, _ => by
    simp only [List.length_singleton] at h
    omega
  | x :: y :: rest, h, a, b, post => by
    simp only [List.cons_append, nextLayer, List.append_eq]
    rw [nextLayer_swap keccak rest
      (by simp only [List.length_cons] at h; omega) a b post]

theorem buildLayers_root_step (keccak : Bytes → Bytes) (sp : Bool) (cur : List Bytes)
    (h : 2 ≤ cur.length) :
    ((buildLayers keccak sp cur).getLastD []).headD [] =
    ((buildLayers keccak sp (nextLayer keccak sp cur)).getLastD []).headD [] := by
  rw [buildLayers_eq_cons keccak sp cur h,
    getLastD_cons_of_ne_nil _ _ _ (buildLayers_ne_nil keccak sp _)]

theorem buildLayers_root_swap (keccak : Bytes → Bytes) (pre : List Bytes)
    (hpre : pre.length % 2 = 0) (a b : Bytes) (post : List Bytes) :
    ((buildLayers keccak true (pre ++ a :: b :: post)).getLastD []).headD [] =
    ((buildLayers keccak true (pre ++ b :: a :: post)).getLastD []).headD [] := by
  have hlen1 : 2 ≤ (pre ++ a :: b :: post).length := by
    simp only [List.length_append, List.length_cons]
    omega
  have hlen2 : 2 ≤ (pre ++ b :: a :: post).length := by
    simp only [List.length_append, List.length_cons]
    omega
  rw [buildLayers_root_step keccak true _ hlen1, buildLayers_root_step keccak true _ hlen2,
    nextLayer_swap keccak pre hpre a b post]

theorem root_of_mk (keccak : Bytes → Bytes) (inputs : List Bytes) (hl sp : Bool)
    (hne : inputs ≠ []) :
    (mkMerkleTree keccak inputs hl sp).map MerkleTree.root =
      .ok (((buildLayers keccak sp
        (if hl then inputs.map keccak else inputs)).getLastD []).headD []) := by
  rw [mkMerkleTree_ok keccak inputs hl sp hne]
  rfl

/-- C3 counterexample: with sort_pairs enabled, swapping leaves 1 and 2 —
which cross a pair boundary — changes the root, because it changes which
elements get paired, not merely the order within a pair. -/
theorem swap_root_counterexample :
    (mkMerkleTree testHash [[0], [1], [2], [3]] false true).map MerkleTree.root
      = .ok [7, 7, 0, 1, 7, 2, 3] ∧
    (mkMerkleTree testHash [[0], [2], [1], [3]] false true).map MerkleTree.root
      = .ok [7, 7, 0, 2, 7, 1, 3] ∧
    ([7, 7, 0, 1, 7, 2, 3] : Bytes) ≠ [7, 7, 0, 2, 7, 1, 3] :=
  ⟨rfl, rfl, by decide⟩

/-- C3 (amended): with sort_pairs enabled, swapping the two leaves of one
adjacent pair — positions 2j and 2j+1, here expressed as the two leaves
following an even-length prefix — never changes the root; swapping leaves
across pair boundaries can change it. -/
theorem adjacent_swap_preserves_root (keccak : Bytes → Bytes) (hl : Bool)
    (pre post : List Bytes) (a b : Bytes) (hpre : pre.length % 2 = 0) :
    (mkMerkleTree keccak (pre ++ a :: b :: post) hl true).map MerkleTree.root =
    (mkMerkleTree keccak (pre ++ b :: a :: post) hl true).map MerkleTree.root := by
  have hne1 : pre ++ a :: b :: post ≠ [] := by simp
  have hne2 : pre ++ b :: a :: post ≠ [] := by simp
  rw [root_of_mk keccak _ hl true hne1, root_of_mk keccak _ hl true hne2]
  cases hl
  · exact congrArg Except.ok (buildLayers_root_swap keccak pre hpre a b post)
  · refine congrArg Except.ok ?_
    rw [show (if true then (pre ++ a :: b :: post).map keccak
          else pre ++ a :: b :: post)
        = pre.map keccak ++ keccak a :: keccak b :: post.map keccak by simp,
      show (if true then (pre ++ b :: a :: post).map keccak
          else pre ++ b :: a :: post)
        = pre.map keccak ++ keccak b :: keccak a :: post.map keccak by simp]
    exact buildLayers_root_swap keccak (pre.map keccak) (by simpa using hpre)
      (keccak a) (keccak b) (post.map keccak)

theorem adjacent_swap_preserves_root_witness :
    (mkMerkleTree testHash ([] ++ [1] :: [2] :: [[3]]) false true).map MerkleTree.root =
    (mkMerkleTree testHash ([] ++ [2] :: [1] :: [[3]]) false true).map MerkleTree.root :=
  adjacent_swap_preserves_root testHash false [] [[3]] [1] [2] rfl

/-- C4: for every pair combined during layer construction, with sort_pairs
the parent is keccak of the concatenation with the byte-wise smaller buffer
first; without it, keccak of left ++ right in position order. -/
theorem hash_pair_ordering (keccak : Bytes → Bytes) (l r : Bytes) :
    hash_pair keccak false l r = keccak (l ++ r) ∧
    ∃ a b : Bytes, ((a, b) = (l, r) ∨ (a, b) = (r, l)) ∧ bytesLt b a = false ∧
      hash_pair keccak true l r = keccak (a ++ b) := by
  constructor
  · simp [hash_pair]
  · by_cases h : bytesLt r l = true
    · exact ⟨r, l, Or.inr rfl, bytesLt_asymm r l h, by simp [hash_pair, h]⟩
    · have h' : bytesLt r l = false := by simpa using h
      exact ⟨l, r, Or.inl rfl, h', by simp [hash_pair, h']⟩

theorem buildLayers_chain (keccak : Bytes → Bytes) (sp : Bool) :
    ∀ fuel : Nat, ∀ cur : List Bytes, cur.length ≤ fuel →
      ∀ k : Nat, k + 1 < (buildLayers keccak sp cur).length →
        (buildLayers keccak sp cur).getD (k + 1) [] =
          nextLayer keccak sp ((buildLayers keccak sp cur).getD k []) := by
  intro fuel
  induction fuel with
  | zero =>
    intro cur hf k hk
    rw [buildLayers_eq_single keccak sp cur (by omega)] at hk
    simp at hk
  | succ f ih =>
    intro cur hf k hk
    by_cases h1 : cur.length ≤ 1
    · rw [buildLayers_eq_single keccak sp cur h1] at hk
      simp at hk
    · have h2 : 2 ≤ cur.length := by omega
      rw [buildLayers_eq_cons keccak sp cur h2] at hk ⊢
      cases k with
      | zero =>
        simp only [List.getD_cons_succ, List.getD_cons_zero]
        have hgd : ∀ l : List (List Bytes), l ≠ [] → l.getD 0 [] = l.headD [] := by
          intro l hl
          cases l with
          | nil => exact absurd rfl hl
          | cons z zs => rfl
        rw [hgd _ (buildLayers_ne_nil keccak sp _), buildLayers_headD]
      | succ j =>
        simp only [List.getD_cons_succ]
        apply ih (nextLayer keccak sp cur)
          (by have := nextLayer_length keccak sp cur; omega)
        simp only [List.length_cons] at hk
        omega

theorem buildLayers_all_ne_nil (keccak : Bytes → Bytes) (sp : Bool) :
    ∀ fuel : Nat, ∀ cur : List Bytes, cur.length ≤ fuel → cur ≠ [] →
      ∀ layer ∈ buildLayers keccak sp cur, layer ≠ [] := by
  intro fuel
  induction fuel with
  | zero =>
    intro cur hf hne
    exact absurd (List.length_pos.mpr hne) (by omega)
  | succ f ih =>
    intro cur hf hne layer hmem
    by_cases h1 : cur.length ≤ 1
    · rw [buildLayers_eq_single keccak sp cur h1] at hmem
      rw [List.mem_singleton.mp hmem]
      exact hne
    · rw [buildLayers_eq_cons keccak sp cur (by omega)] at hmem
      rcases List.mem_cons.mp hmem with h | h
      · rw [h]
        exact hne
      · exact ih (nextLayer keccak sp cur)
          (by have := nextLayer_length keccak sp cur; omega)
          (nextLayer_ne_nil keccak sp cur hne) layer h

/-- C5: layer 0 of a built tree is the (optionally hashed) leaf sequence;
each layer k+1 pairs adjacent elements of layer k, duplicating an odd last
element (it equals `nextLayer` of layer k), so its length is
ceil(previous length / 2); every layer is non-empty; and the final layer is
the single-element root layer. -/
theorem tree_layer_invariants (keccak : Bytes → Bytes) (inputs : List Bytes)
    (hl sp : Bool) (t : MerkleTree) (ht : mkMerkleTree keccak inputs hl sp = .ok t) :
    t.layers.headD [] = (if hl then inputs.map keccak else inputs) ∧
    t.layers.headD [] = t.leaves ∧
    (∀ k : Nat, k + 1 < t.layers.length →
      t.layers.getD (k + 1) [] = nextLayer keccak sp (t.layers.getD k []) ∧
      (t.layers.getD (k + 1) []).length = ((t.layers.getD k []).length + 1) / 2) ∧
    (∀ layer ∈ t.layers, layer ≠ []) ∧
    (t.layers.getLastD []).length = 1 ∧
    t.root = (t.layers.getLastD []).headD [] := by
  obtain ⟨hne, _, hlv, hly⟩ := mkMerkleTree_ok_elim keccak inputs hl sp t ht
  have hPne : (if hl then inputs.map keccak else inputs) ≠ [] := by
    cases hl
    · simpa using hne
    · simpa using hne
  refine ⟨?_, ?_, ?_, ?_, ?_, rfl⟩
  · rw [hly, buildLayers_headD]
  · rw [hly, buildLayers_headD, hlv]
  · intro k hk
    rw [hly] at hk ⊢
    have hstep := buildLayers_chain keccak sp _ _ le_rfl k hk
    refine ⟨hstep, ?_⟩
    rw [hstep, nextLayer_length]
  · rw [hly]
    exact buildLayers_all_ne_nil keccak sp _ _ le_rfl hPne
  · rw [hly]
    exact buildLayers_lastLayer keccak sp _ _ le_rfl hPne

theorem tree_layer_invariants_witness :
    tw3.layers.headD [] = (if false then [[1], [2], [3]].map testHash
      else [[1], [2], [3]]) ∧
    tw3.layers.headD [] = tw3.leaves ∧
    (∀ k : Nat, k + 1 < tw3.layers.length →
      tw3.layers.getD (k + 1) [] = nextLayer testHash true (tw3.layers.getD k []) ∧
      (tw3.layers.getD (k + 1) []).length = ((tw3.layers.getD k []).length + 1) / 2) ∧
    (∀ layer ∈ tw3.layers, layer ≠ []) ∧
    (tw3.layers.getLastD []).length = 1 ∧
    tw3.root = (tw3.layers.getLastD []).headD [] :=
  tree_layer_invariants testHash [[1], [2], [3]] false true tw3 tw3_built

/-- C6: construction from an empty leaf sequence fails with the
empty-input error and returns no tree; from any non-empty leaf sequence it
succeeds and returns a complete tree whose final layer is a single root. -/
theorem empty_input_error (keccak : Bytes → Bytes) (hl sp : Bool) :
    mkMerkleTree keccak [] hl sp = .error "Merkle tree requires at least one leaf" ∧
    ∀ inputs : List Bytes, inputs ≠ [] →
      ∃ t : MerkleTree, mkMerkleTree keccak inputs hl sp = .ok t ∧
        (t.layers.getLastD []).length = 1 := by
  refine ⟨mkMerkleTree_nil keccak hl sp, ?_⟩
  intro inputs hne
  have hPne : (if hl then inputs.map keccak else inputs) ≠ [] := by
    cases hl
    · simpa using hne
    · simpa using hne
  exact ⟨_, mkMerkleTree_ok keccak inputs hl sp hne,
    buildLayers_lastLayer keccak sp _ _ le_rfl hPne⟩

theorem empty_input_error_witness :
    mkMerkleTree testHash [] false true
        = .error "Merkle tree requires at least one leaf" ∧
    ∃ t : MerkleTree, mkMerkleTree testHash [[5]] false true = .ok t ∧
      (t.layers.getLastD []).length = 1 :=
  ⟨(empty_input_error testHash false true).1,
   (empty_input_error testHash false true).2 [[5]] (by decide)⟩

/-- C7: for a built tree, get_proof fails with the index-range error exactly
when the index is negative or at least the leaf count; the tree value is
untouched by any call (get_proof is a pure read), so every in-range index
still yields a proof. -/
theorem get_proof_range_check (keccak : Bytes → Bytes) (inputs : List Bytes)
    (hl sp : Bool) (t : MerkleTree) (ht : mkMerkleTree keccak inputs hl sp = .ok t)
    (i : Int) :
    (t.get_proof i = .error "Leaf index out of range" ↔
      (i < 0 ∨ (t.leaves.length : Int) ≤ i)) ∧
    (∀ j : Int, 0 ≤ j → j < (t.leaves.length : Int) →
      ∃ pf : List Bytes, t.get_proof j = .ok pf) := by
  constructor
  · constructor
    · intro herr
      by_contra hv
      rw [MerkleTree.get_proof, if_neg hv] at herr
      exact absurd herr (by simp)
    · intro hv
      rw [MerkleTree.get_proof, if_pos hv]
  · intro j h0 hlt
    exact ⟨_, get_proof_ok t j h0 hlt⟩

theorem get_proof_range_check_witness :
    (tw3.get_proof 5 = .error "Leaf index out of range" ↔
      ((5 : Int) < 0 ∨ (tw3.leaves.length : Int) ≤ 5)) ∧
    (∀ j : Int, 0 ≤ j → j < (tw3.leaves.length : Int) →
      ∃ pf : List Bytes, tw3.get_proof j = .ok pf) :=
  get_proof_range_check testHash [[1], [2], [3]] false true tw3 tw3_built 5

/-- C8: a single-leaf tree's root is the leaf itself (keccak-hashed when
hash_leaves is enabled, raw otherwise), its layer list is just layer 0, and
get_proof(0) returns the empty proof. -/
theorem single_leaf_tree (keccak : Bytes → Bytes) (leaf : Bytes) (hl sp : Bool) :
    ∃ t : MerkleTree, mkMerkleTree keccak [leaf] hl sp = .ok t ∧
      t.root = (if hl then keccak leaf else leaf) ∧
      t.layers = [[if hl then keccak leaf else leaf]] ∧
      t.get_proof 0 = .ok [] := by
  cases hl
  · exact ⟨_, mkMerkleTree_ok keccak [leaf] false sp (by simp), rfl, rfl, rfl⟩
  · exact ⟨_, mkMerkleTree_ok keccak [leaf] true sp (by simp), rfl, rfl, rfl⟩

/-- C9: the leaf bytes fed to the tree are exactly the UTF-8 encodings of
"{name}:{cid}" per files entry in array order, with leaf hashing and pair
sorting enabled; a manifest with a missing or empty files array fails with
the no-files error. -/
theorem manifest_tree_spec (keccak : Bytes → Bytes) (m : Manifest) :
    ((m.files = none ∨ m.files = some []) →
      build_merkle_tree_from_manifest keccak m
        = .error "Manifest does not contain any files") ∧
    (∀ l : List ManifestEntry, m.files = some l → l ≠ [] →
      ∃ t : MerkleTree,
        build_merkle_tree_from_manifest keccak m = .ok t ∧
        t.sort_pairs = true ∧
        t.leaves = l.map (fun e => keccak (strBytes (e.name ++ ":" ++ e.cid)))) := by
  constructor
  · intro h
    rcases h with h | h
    · rw [build_merkle_tree_from_manifest, h]
      rfl
    · rw [build_merkle_tree_from_manifest, h]
      rfl
  · intro l hm hne
    simp only [build_merkle_tree_from_manifest, hm, Option.getD_some]
    obtain ⟨e, l', rfl⟩ : ∃ e l', l = e :: l' := by
      cases l with
      | nil => exact absurd rfl hne
      | cons e l' => exact ⟨e, l', rfl⟩
    rw [if_neg (by simp)]
    refine ⟨_, mkMerkleTree_ok keccak _ true true (by simp), rfl, ?_⟩
    simp [manifest_leaf, List.map_map, Function.comp]

/-- Concrete two-entry manifest for the C9 witness. -/
def mWitness : Manifest := ⟨some [⟨"a", "cid1"⟩, ⟨"b", "cid2"⟩]⟩

theorem manifest_tree_spec_witness :
    ∃ t : MerkleTree,
      build_merkle_tree_from_manifest testHash mWitness = .ok t ∧
      t.sort_pairs = true ∧
      t.leaves = ([⟨"a", "cid1"⟩, ⟨"b", "cid2"⟩] : List ManifestEntry).map
        (fun e => testHash (strBytes (e.name ++ ":" ++ e.cid))) :=
  (manifest_tree_spec testHash mWitness).2 [⟨"a", "cid1"⟩, ⟨"b", "cid2"⟩] rfl
    (by decide)

/-- C10: with hash_leaves disabled, layer 0 is exactly the input byte
strings as supplied, unhashed and untransformed; inputs of any lengths,
equal or not, are accepted. -/
theorem raw_leaves_used_verbatim (keccak : Bytes → Bytes) (inputs : List Bytes)
    (sp : Bool) (hne : inputs ≠ []) :
    ∃ t : MerkleTree, mkMerkleTree keccak inputs false sp = .ok t ∧
      t.leaves = inputs ∧ t.layers.headD [] = inputs := by
  refine ⟨_, mkMerkleTree_ok keccak inputs false sp hne, rfl, ?_⟩
  exact buildLayers_headD keccak sp inputs

theorem raw_leaves_used_verbatim_witness :
    ∃ t : MerkleTree, mkMerkleTree testHash [[1, 2, 3], [4], []] false true = .ok t ∧
      t.leaves = [[1, 2, 3], [4], []] ∧ t.layers.headD [] = [[1, 2, 3], [4], []] :=
  raw_leaves_used_verbatim testHash [[1, 2, 3], [4], []] true (by decide)
